import Mathlib

/-!
Verification development for the kurate build scripts.

The sources are four Python files:
  * `src/update_index.py`  — splices a replacement `getStylesCSS` function into
    `index.js` between two textual markers;
  * `src/update_js.py`     — splices a replacement `renderLinks` function into
    `index.js`, with a fallback end marker;
  * `build_chrome_extension.py`  — stages the extension tree and zips it,
    excluding `.md` files;
  * `build_firefox_extension.py` — stages the tree, rewrites the manifest
    `background` section, and zips everything.

Buffers are embedded as `List Char` (Python `str`), `find` as a first-occurrence
substring search returning `-1` on failure exactly like `str.find`, and Python
slices with possibly negative bounds as `pySliceTo` / `pySliceFrom`.
-/

/-- First-occurrence substring search: position of the first index at which
`needle` is a prefix of the remaining buffer (Python `hay.find(needle)` before
the `-1` encoding). `none` when `needle` occurs nowhere. -/
def pyFindN (hay needle : List Char) : Option Nat :=
  match hay with
  | [] => if needle.isPrefixOf [] then some 0 else none
  | c :: t =>
    if needle.isPrefixOf (c :: t) then some 0
    else (pyFindN t needle).map (· + 1)

/-- Python `hay.find(needle)`: first occurrence index, `-1` when absent. -/
def pyFind (hay needle : List Char) : Int :=
  match pyFindN hay needle with
  | some n => (n : Int)
  | none => -1

/-- Python slice `s[:k]` with `k` possibly negative (counted from the end,
clamped at zero). -/
def pySliceTo (s : List Char) (k : Int) : List Char :=
  if k < 0 then s.take (s.length - (-k).toNat) else s.take k.toNat

/-- Python slice `s[k:]` with `k` possibly negative (counted from the end,
clamped at zero). -/
def pySliceFrom (s : List Char) (k : Int) : List Char :=
  if k < 0 then s.drop (s.length - (-k).toNat) else s.drop k.toNat

/-- Start marker of `update_index.py`: `'function getStylesCSS() \x7b'`. -/
def getStylesCSS_start : List Char := "function getStylesCSS() \x7b".data

/-- End marker of `update_index.py`: `'function getAppJS() \x7b'`. -/
def getAppJS_end : List Char := "function getAppJS() \x7b".data

/-- Separator inserted by `update_index.py` between the replacement and the
retained tail: `"\n\n"`. -/
def index_sep : List Char := "\n\n".data

/-- Start marker of `update_js.py`: `'renderLinks() \x7b'`. -/
def renderLinks_start : List Char := "renderLinks() \x7b".data

/-- Strict end marker of `update_js.py`: `'async copyLink(url) \x7b'`. -/
def copyLink_end_strict : List Char := "async copyLink(url) \x7b".data

/-- Fallback (loose) end marker of `update_js.py`: `'copyLink(url) \x7b'`. -/
def copyLink_end_loose : List Char := "copyLink(url) \x7b".data

/-- Separator inserted by `update_js.py`: `"\n\n    "`. -/
def js_sep : List Char := "\n\n    ".data

/-- The `update_index.py` script on an in-memory buffer: locate both markers,
halt (`none`, modelling `exit(1)` before any write) if either is absent,
otherwise produce the buffer written back to `index.js`. -/
def update_index (content new_css_func : List Char) : Option (List Char) :=
  let start_idx := pyFind content getStylesCSS_start
  let end_idx := pyFind content getAppJS_end
  if start_idx = -1 ∨ end_idx = -1 then none
  else some (pySliceTo content start_idx ++ new_css_func ++ index_sep ++
    pySliceFrom content end_idx)

/-- The `update_js.py` script on an in-memory buffer.  Mirrors the source
control flow: when the strict end marker is missing the loose marker is tried,
and `exit(1)` (`none`) happens only when that also fails; in every other path
the spliced buffer is written — including the path where only the start marker
is missing, where Python computes `content[:-1]` from `start_idx = -1`. -/
def update_js (content new_func : List Char) : Option (List Char) :=
  let start_idx := pyFind content renderLinks_start
  let end_idx := pyFind content copyLink_end_strict
  if start_idx = -1 ∨ end_idx = -1 then
    if end_idx = -1 then
      let end_idx2 := pyFind content copyLink_end_loose
      if end_idx2 = -1 then none
      else some (pySliceTo content start_idx ++ new_func ++ js_sep ++
        pySliceFrom content end_idx2)
    else some (pySliceTo content start_idx ++ new_func ++ js_sep ++
      pySliceFrom content end_idx)
  else some (pySliceTo content start_idx ++ new_func ++ js_sep ++
    pySliceFrom content end_idx)

/-- The patch splicer shared by both call sites (`new_content = content[:i] +
replacement + separator + content[j:]` with both offsets in range). -/
def splice (buffer : List Char) (startOffset endOffset : Nat)
    (replacement separator : List Char) : List Char :=
  buffer.take startOffset ++ replacement ++ separator ++ buffer.drop endOffset

/-! Basic facts about the search and slice primitives. -/

theorem pyFindN_le {hay needle : List Char} {p : Nat}
    (h : pyFindN hay needle = some p) : p ≤ hay.length := by
  induction hay generalizing p with
  | nil =>
    simp only [pyFindN] at h
    split at h
    · simp at h
      omega
    · simp at h
  | cons c t ih =>
    simp only [pyFindN] at h
    split at h
    · simp at h
      omega
    · simp only [Option.map_eq_some'] at h
      obtain ⟨q, hq, rfl⟩ := h
      have := ih hq
      simp only [List.length_cons]
      omega

theorem pyFindN_some_occurs {hay needle : List Char} {p : Nat}
    (h : pyFindN hay needle = some p) : needle <+: hay.drop p := by
  induction hay generalizing p with
  | nil =>
    simp only [pyFindN] at h
    split at h
    · rw [List.drop_nil]
      exact List.isPrefixOf_iff_prefix.mp (by assumption)
    · simp at h
  | cons c t ih =>
    simp only [pyFindN] at h
    split at h
    · have hp : p = 0 := by simp at h; omega
      subst hp
      exact List.isPrefixOf_iff_prefix.mp (by assumption)
    · simp only [Option.map_eq_some'] at h
      obtain ⟨q, hq, rfl⟩ := h
      simpa using ih hq

theorem pyFindN_some_min {hay needle : List Char} {p : Nat}
    (h : pyFindN hay needle = some p) :
    ∀ q, q < p → ¬ needle <+: hay.drop q := by
  induction hay generalizing p with
  | nil =>
    simp only [pyFindN] at h
    split at h
    · have hp : p = 0 := by simp at h; omega
      subst hp
      intro q hq
      omega
    · simp at h
  | cons c t ih =>
    simp only [pyFindN] at h
    split at h
    · have hp : p = 0 := by simp at h; omega
      subst hp
      intro q hq
      omega
    · simp only [Option.map_eq_some'] at h
      obtain ⟨r, hr, rfl⟩ := h
      intro q hq
      match q with
      | 0 =>
        simp only [List.drop_zero]
        intro hcon
        exact (by assumption : ¬ needle.isPrefixOf (c :: t) = true)
          ( List.isPrefixOf_iff_prefix.mpr hcon)
      | q' + 1 =>
        simpa using ih hr q' (by omega)

theorem pyFindN_eq_some {hay needle : List Char} {p : Nat}
    (h1 : needle <+: hay.drop p) (h2 : ∀ q, q < p → ¬ needle <+: hay.drop q) :
    pyFindN hay needle = some p := by
  induction hay generalizing p with
  | nil =>
    rw [List.drop_nil] at h1
    have hnil : needle = [] := List.prefix_nil.mp h1
    subst hnil
    match p with
    | 0 => rfl
    | q + 1 => exact absurd (by simp) (h2 0 (by omega))
  | cons c t ih =>
    simp only [pyFindN]
    split
    · match p with
      | 0 => rfl
      | q + 1 =>
        have hpre : needle <+: (c :: t) :=
          List.isPrefixOf_iff_prefix.mp (by assumption)
        exact absurd (by simpa using hpre) (h2 0 (by omega))
    · match p with
      | 0 =>
        simp only [List.drop_zero] at h1
        exact absurd ( List.isPrefixOf_iff_prefix.mpr h1) (by simp_all)
      | q + 1 =>
        have hq := @ih q (by simpa using h1)
          (fun r hr => by simpa using h2 (r + 1) (by omega))
        simp [hq]

theorem pyFindN_none {hay needle : List Char}
    (h : pyFindN hay needle = none) : ∀ p, ¬ needle <+: hay.drop p := by
  intro p hp
  have hex : ∃ q, needle <+: hay.drop q := ⟨p, hp⟩
  have := pyFindN_eq_some (Nat.find_spec hex) (fun r hr => Nat.find_min hex hr)
  rw [this] at h
  cases h

/-- Occurrence of `needle` at a position only depends on the buffer up to the
end of the occurrence window. -/
theorem occurs_window {h1 h2 needle : List Char} {q : Nat}
    (hw : h1.take (q + needle.length) = h2.take (q + needle.length)) :
    needle <+: h1.drop q ↔ needle <+: h2.drop q := by
  have key : ∀ h : List Char,
      needle <+: (h.take (q + needle.length)).drop q ↔ needle <+: h.drop q := by
    intro h
    rw [List.drop_take, Nat.add_sub_cancel_left, List.prefix_take_iff]
    simp
  rw [← key h1, ← key h2, hw]

theorem pyFind_of_some {c m : List Char} {n : Nat}
    (h : pyFindN c m = some n) : pyFind c m = (n : Int) := by
  unfold pyFind
  rw [h]

theorem pyFind_of_none {c m : List Char}
    (h : pyFindN c m = none) : pyFind c m = -1 := by
  unfold pyFind
  rw [h]

theorem pyFind_eq_neg_one {c m : List Char} :
    pyFind c m = -1 ↔ pyFindN c m = none := by
  unfold pyFind
  cases h : pyFindN c m with
  | none => simp
  | some n =>
    simp only [iff_false_intro (Option.noConfusion : some n = none → False)]
    constructor
    · intro hc
      omega
    · intro hc
      exact absurd hc (by simp)

theorem pySliceTo_natCast (s : List Char) (n : Nat) :
    pySliceTo s (n : Int) = s.take n := by
  unfold pySliceTo
  rw [if_neg (by omega)]
  simp

theorem pySliceFrom_natCast (s : List Char) (n : Nat) :
    pySliceFrom s (n : Int) = s.drop n := by
  unfold pySliceFrom
  rw [if_neg (by omega)]
  simp

/-- C3: for every buffer containing the start marker at `i` and the end marker
at `j ≥ i`, and every replacement, the spliced result keeps the prefix up to
`i`, places the replacement next, and from `i + len(R) + len(separator)`
onward equals the buffer from `j` (the call-site separators are
`index_sep` and `js_sep`; the statement covers any separator). -/
theorem c3_splice_correct (B R sep sm em : List Char) (i j : Nat)
    (hsm : sm <+: B.drop i) (hsm_ne : sm ≠ []) (hem : em <+: B.drop j)
    (hij : i ≤ j) :
    (splice B i j R sep).take i = B.take i ∧
    ((splice B i j R sep).drop i).take R.length = R ∧
    (splice B i j R sep).drop (i + R.length + sep.length) = B.drop j := by
  have hi : i ≤ B.length := by
    by_contra hlt
    push_neg at hlt
    have hdrop : B.drop i = [] := by
      rw [List.drop_eq_nil_iff]
      omega
    rw [hdrop] at hsm
    exact hsm_ne (List.prefix_nil.mp hsm)
  have hlenP : (B.take i).length = i := by
    rw [List.length_take]
    omega
  refine ⟨?_, ?_, ?_⟩
  · unfold splice
    rw [List.append_assoc, List.append_assoc]
    exact List.take_left' hlenP
  · unfold splice
    rw [List.append_assoc, List.append_assoc, List.drop_left' hlenP,
      ← List.append_assoc, List.append_assoc]
    exact List.take_left' rfl
  · unfold splice
    exact List.drop_left' (by simp only [List.length_append, hlenP])

theorem c3_witness :
    ("ab".data <+: List.drop 0 "abXcdY".data ∧ "ab".data ≠ [] ∧
      "cd".data <+: List.drop 3 "abXcdY".data ∧ 0 ≤ 3) ∧
    ((splice "abXcdY".data 0 3 "R".data "_".data).take 0 =
        List.take 0 "abXcdY".data ∧
      ((splice "abXcdY".data 0 3 "R".data "_".data).drop 0).take
          ("R".data).length = "R".data ∧
      (splice "abXcdY".data 0 3 "R".data "_".data).drop
          (0 + ("R".data).length + ("_".data).length) =
        List.drop 3 "abXcdY".data) :=
  ⟨⟨by decide, by decide, by decide, by decide⟩,
    c3_splice_correct "abXcdY".data "R".data "_".data "ab".data "cd".data 0 3
      (by decide) (by decide) (by decide) (by decide)⟩

/-- C1 (code bug evidence): on a buffer where the start marker
`'renderLinks() \x7b'` is absent but the end marker is present, `update_js.py`
prints the marker error yet continues: Python evaluates
`content[:start_idx]` with `start_idx = -1` as `content[:-1]`, writes the
spliced file, and exits 0 — instead of terminating with a non-zero status
before any write as the claim requires. -/
theorem c1_update_js_writes_despite_missing_marker :
    pyFind "async copyLink(url) \x7b \x7d".data renderLinks_start = -1 ∧
    update_js "async copyLink(url) \x7b \x7d".data "NEW".data =
      some ("async copyLink(url) \x7b NEW\n\n    async copyLink(url) \x7b \x7d".data) := by
  constructor
  · decide
  · decide

/-- C9: when the strict end marker `'async copyLink(url) \x7b'` is absent,
`update_js.py` retries with the loose marker `'copyLink(url) \x7b'`; it
terminates with a non-zero status (modelled `none`) exactly when the fallback
is also absent, and otherwise splices retaining the found loose end marker
(the tail of the written buffer is `content[k:]`, which starts with the loose
marker). -/
theorem c9_fallback (content snippet : List Char)
    (hstrict : pyFindN content copyLink_end_strict = none) :
    (update_js content snippet = none ↔
      pyFindN content copyLink_end_loose = none) ∧
    (∀ k, pyFindN content copyLink_end_loose = some k →
      update_js content snippet =
        some (pySliceTo content (pyFind content renderLinks_start) ++ snippet ++
          js_sep ++ content.drop k) ∧
      copyLink_end_loose <+: content.drop k) := by
  have hstrictI : pyFind content copyLink_end_strict = -1 :=
    pyFind_of_none hstrict
  constructor
  · simp only [update_js, hstrictI]
    cases hl : pyFindN content copyLink_end_loose with
    | none =>
      rw [pyFind_of_none hl]
      simp
    | some k =>
      rw [pyFind_of_some hl]
      have hne : ((k : Int)) ≠ -1 := by omega
      simp [hne]
  · intro k hk
    refine ⟨?_, pyFindN_some_occurs hk⟩
    simp only [update_js, hstrictI, pyFind_of_some hk]
    have hne : ((k : Int)) ≠ -1 := by omega
    simp [hne, pySliceFrom_natCast]

theorem c9_witness :
    pyFindN "copyLink(url) \x7b hi".data copyLink_end_strict = none ∧
    (update_js "copyLink(url) \x7b hi".data "Z".data =
        some (pySliceTo "copyLink(url) \x7b hi".data
            (pyFind "copyLink(url) \x7b hi".data renderLinks_start) ++
          "Z".data ++ js_sep ++ List.drop 0 "copyLink(url) \x7b hi".data) ∧
      copyLink_end_loose <+: List.drop 0 "copyLink(url) \x7b hi".data) :=
  ⟨by decide, (c9_fallback "copyLink(url) \x7b hi".data "Z".data (by decide)).2
    0 (by decide)⟩

/-- If the first occurrence of `sm` in `B` is at `i` and the replacement `R`
begins with `sm`, then the first occurrence of `sm` in the patched buffer
`B[:i] ++ R ++ X` is again at `i`. -/
theorem refind_start {B R sm : List Char} {i : Nat} (X : List Char)
    (hs : pyFindN B sm = some i) (hR : sm <+: R) :
    pyFindN (B.take i ++ (R ++ X)) sm = some i := by
  have hi : i ≤ B.length := pyFindN_le hs
  have hlenP : (B.take i).length = i := by
    rw [List.length_take]
    omega
  have hocc : sm <+: (B.take i ++ (R ++ X)).drop i := by
    rw [List.drop_left' hlenP]
    exact hR.trans (List.prefix_append R X)
  have hshare : (B.take i ++ (R ++ X)).take (i + sm.length) =
      B.take (i + sm.length) := by
    rw [List.take_add, List.take_add]
    congr 1
    · rw [List.take_left' hlenP]
    · rw [List.drop_left' hlenP]
      have h1 : (R ++ X).take sm.length = sm :=
        (List.prefix_iff_eq_take.mp (hR.trans (List.prefix_append R X))).symm
      have h2 : (B.drop i).take sm.length = sm :=
        (List.prefix_iff_eq_take.mp (pyFindN_some_occurs hs)).symm
      rw [h1, h2]
  apply pyFindN_eq_some hocc
  intro q hq
  have hw : (B.take i ++ (R ++ X)).take (q + sm.length) =
      B.take (q + sm.length) := by
    have hmin : q + sm.length ≤ i + sm.length := by omega
    calc (B.take i ++ (R ++ X)).take (q + sm.length)
        = ((B.take i ++ (R ++ X)).take (i + sm.length)).take
            (q + sm.length) := by
          rw [List.take_take]
          congr 1
          omega
      _ = (B.take (i + sm.length)).take (q + sm.length) := by rw [hshare]
      _ = B.take (q + sm.length) := by
          rw [List.take_take]
          congr 1
          omega
  rw [occurs_window hw]
  exact pyFindN_some_min hs q hq

/-- If the first occurrence of `em` in `X ++ em` is at the very end (position
`X.length`), then for any tail `D` beginning with `em`, the first occurrence
of `em` in `X ++ D` is also at `X.length`. -/
theorem find_append_tail {X D em : List Char}
    (hD : em <+: D)
    (hfirst : pyFindN (X ++ em) em = some X.length) :
    pyFindN (X ++ D) em = some X.length := by
  have hocc : em <+: (X ++ D).drop X.length := by
    rw [List.drop_left]
    exact hD
  have hshare : (X ++ D).take (X.length + em.length) =
      (X ++ em).take (X.length + em.length) := by
    rw [List.take_add, List.take_add]
    congr 1
    · rw [List.take_left, List.take_left]
    · rw [List.drop_left, List.drop_left]
      rw [(List.prefix_iff_eq_take.mp hD).symm]
      simp
  apply pyFindN_eq_some hocc
  intro q hq
  have hw : (X ++ D).take (q + em.length) =
      (X ++ em).take (q + em.length) := by
    calc (X ++ D).take (q + em.length)
        = ((X ++ D).take (X.length + em.length)).take (q + em.length) := by
          rw [List.take_take]
          congr 1
          omega
      _ = ((X ++ em).take (X.length + em.length)).take (q + em.length) := by
          rw [hshare]
      _ = (X ++ em).take (q + em.length) := by
          rw [List.take_take]
          congr 1
          omega
  rw [occurs_window hw]
  exact pyFindN_some_min hfirst q hq

/-- C6 (amended): re-applying the `update_index.py` patch to the
already-patched buffer reproduces the same result when the replacement begins
with the start marker and the patched prefix's first end-marker occurrence is
at the head of the retained tail; it fails with the missing-marker exit when
either marker is absent from the patched buffer.  (The two outcomes are not
exhaustive for other replacements; see the counterexample.) -/
theorem c6_repatch :
    (∀ B R i j, pyFindN B getStylesCSS_start = some i →
      pyFindN B getAppJS_end = some j →
      getStylesCSS_start <+: R →
      pyFindN (B.take i ++ R ++ index_sep ++ getAppJS_end) getAppJS_end =
        some (i + R.length + index_sep.length) →
      update_index B R = some (B.take i ++ R ++ index_sep ++ B.drop j) ∧
      update_index (B.take i ++ R ++ index_sep ++ B.drop j) R =
        some (B.take i ++ R ++ index_sep ++ B.drop j)) ∧
    (∀ B1 R, pyFindN B1 getStylesCSS_start = none ∨
        pyFindN B1 getAppJS_end = none →
      update_index B1 R = none) := by
  constructor
  · intro B R i j hs he hR hE
    have hi : i ≤ B.length := pyFindN_le hs
    have hlenP : (B.take i).length = i := by
      rw [List.length_take]
      omega
    have hXlen : (B.take i ++ R ++ index_sep).length =
        i + R.length + index_sep.length := by
      simp only [List.length_append, hlenP]
    constructor
    · simp only [update_index, pyFind_of_some hs, pyFind_of_some he]
      rw [if_neg (by omega)]
      rw [pySliceTo_natCast, pySliceFrom_natCast]
    · have hstart1 : pyFindN (B.take i ++ R ++ index_sep ++ B.drop j)
          getStylesCSS_start = some i := by
        have h := refind_start (index_sep ++ B.drop j) hs hR
        have heq : B.take i ++ (R ++ (index_sep ++ B.drop j)) =
            B.take i ++ R ++ index_sep ++ B.drop j := by
          simp [List.append_assoc]
        rw [heq] at h
        exact h
      have hfirst : pyFindN ((B.take i ++ R ++ index_sep) ++ getAppJS_end)
          getAppJS_end = some (B.take i ++ R ++ index_sep).length := by
        rw [hXlen]
        exact hE
      have hend1 : pyFindN (B.take i ++ R ++ index_sep ++ B.drop j)
          getAppJS_end = some (i + R.length + index_sep.length) := by
        have h := find_append_tail (pyFindN_some_occurs he) hfirst
        rw [hXlen] at h
        exact h
      have htake : (B.take i ++ R ++ index_sep ++ B.drop j).take i =
          B.take i := by
        rw [List.append_assoc, List.append_assoc]
        exact List.take_left' hlenP
      have hdrop : (B.take i ++ R ++ index_sep ++ B.drop j).drop
          (i + R.length + index_sep.length) = B.drop j := by
        rw [← hXlen]
        exact List.drop_left _ _
      simp only [update_index, pyFind_of_some hstart1, pyFind_of_some hend1]
      rw [if_neg (by omega)]
      rw [pySliceTo_natCast, pySliceFrom_natCast, htake, hdrop]
  · intro B1 R h
    rcases h with h | h
    · simp [update_index, pyFind_of_none h]
    · simp [update_index, pyFind_of_none h]

/-- C6 counterexample: with the markers of `update_index.py`, (a) a
replacement containing neither marker makes the second application fail with
the missing-marker exit instead of reproducing the same result, and (b) a
replacement that reintroduces the markers at shifted positions makes the
second application succeed with a different buffer — so the claim's case
split and its exhaustiveness both fail as stated. -/
theorem c6_counterexample :
    (update_index "function getStylesCSS() \x7bxfunction getAppJS() \x7b".data
        "r".data = some "r\n\nfunction getAppJS() \x7b".data ∧
      update_index "r\n\nfunction getAppJS() \x7b".data "r".data = none) ∧
    (update_index "function getStylesCSS() \x7bxfunction getAppJS() \x7b".data
        "function getStylesCSS() \x7bfunction getAppJS() \x7b".data =
        some ("function getStylesCSS() \x7bfunction getAppJS() \x7b\n\nfunction getAppJS() \x7b".data) ∧
      update_index
          "function getStylesCSS() \x7bfunction getAppJS() \x7b\n\nfunction getAppJS() \x7b".data
          "function getStylesCSS() \x7bfunction getAppJS() \x7b".data =
        some ("function getStylesCSS() \x7bfunction getAppJS() \x7b\n\nfunction getAppJS() \x7b\n\nfunction getAppJS() \x7b".data) ∧
      ("function getStylesCSS() \x7bfunction getAppJS() \x7b\n\nfunction getAppJS() \x7b\n\nfunction getAppJS() \x7b".data ≠
        "function getStylesCSS() \x7bfunction getAppJS() \x7b\n\nfunction getAppJS() \x7b".data)) := by
  refine ⟨⟨by decide, by decide⟩, by decide, by decide, by decide⟩

theorem c6_witness :
    (pyFindN "function getStylesCSS() \x7bxfunction getAppJS() \x7b".data
        getStylesCSS_start = some 0 ∧
      pyFindN "function getStylesCSS() \x7bxfunction getAppJS() \x7b".data
        getAppJS_end = some 26 ∧
      getStylesCSS_start <+: getStylesCSS_start) ∧
    (update_index "function getStylesCSS() \x7bxfunction getAppJS() \x7b".data
        getStylesCSS_start =
      some (("function getStylesCSS() \x7bxfunction getAppJS() \x7b".data).take 0 ++
        getStylesCSS_start ++ index_sep ++
        ("function getStylesCSS() \x7bxfunction getAppJS() \x7b".data).drop 26) ∧
      update_index
        (("function getStylesCSS() \x7bxfunction getAppJS() \x7b".data).take 0 ++
          getStylesCSS_start ++ index_sep ++
          ("function getStylesCSS() \x7bxfunction getAppJS() \x7b".data).drop 26)
        getStylesCSS_start =
      some (("function getStylesCSS() \x7bxfunction getAppJS() \x7b".data).take 0 ++
        getStylesCSS_start ++ index_sep ++
        ("function getStylesCSS() \x7bxfunction getAppJS() \x7b".data).drop 26)) :=
  ⟨⟨by decide, by decide, by decide⟩,
    c6_repatch.1 "function getStylesCSS() \x7bxfunction getAppJS() \x7b".data
      getStylesCSS_start 0 26 (by decide) (by decide) (by decide) (by decide)⟩

/-! JSON model for the manifest rewrite in `build_firefox_extension.py`.
Objects keep insertion order, as Python dicts (and `json.load`) do. -/

/-- JSON values as produced by `json.load` (numbers restricted to integers,
which covers every value the build scripts touch). -/
inductive Json where
  | null
  | bool (b : Bool)
  | num (n : Int)
  | str (s : String)
  | arr (elems : List Json)
  | obj (members : List (String × Json))

/-- First binding of `key` in an object's member list (Python `d[key]` /
`key in d` on a dict, whose keys are unique). -/
def lookupKey : List (String × Json) → String → Option Json
  | [], _ => none
  | (k, v) :: rest, key => if k == key then some v else lookupKey rest key

mutual
/-- Python `==` on JSON values: structural, except that `True == 1` and
`False == 0`, and dict comparison ignores member order. -/
def pyEq : Json → Json → Bool
  | .null, .null => true
  | .bool a, .bool b => a == b
  | .bool a, .num n => n == (if a then 1 else 0)
  | .num n, .bool b => n == (if b then 1 else 0)
  | .num a, .num b => a == b
  | .str a, .str b => a == b
  | .arr a, .arr b => pyEqList a b
  | .obj a, .obj b => a.length == b.length && pyEqMembers a b
  | _, _ => false
def pyEqList : List Json → List Json → Bool
  | [], [] => true
  | x :: xs, y :: ys => pyEq x y && pyEqList xs ys
  | _, _ => false
def pyEqMembers : List (String × Json) → List (String × Json) → Bool
  | [], _ => true
  | (k, v) :: rest, b =>
    (match lookupKey b k with
     | some v2 => pyEq v v2
     | none => false) && pyEqMembers rest b
end

/-- Python `d.pop(key)`'s effect on the member list: the binding is removed
(keys are unique in a dict, so removing every match is the same). -/
def eraseKey (m : List (String × Json)) (key : String) :
    List (String × Json) :=
  m.filter (fun kv => kv.1 != key)

/-- Python `d[key] = v` on a dict: update in place when the key exists
(keeping its position), append otherwise. -/
def setKey (m : List (String × Json)) (key : String) (v : Json) :
    List (String × Json) :=
  if m.any (fun kv => kv.1 == key) then
    m.map (fun kv => if kv.1 == key then (key, v) else kv)
  else m ++ [(key, v)]

/-- Python `v in container`: key test on dicts (unhashable `v` raises),
membership on lists, substring test on strings (non-string `v` raises),
`TypeError` (`none`) on non-iterables. -/
def pyMem (v : Json) (container : Json) : Option Bool :=
  match container with
  | .obj m =>
    match v with
    | .arr _ => none
    | .obj _ => none
    | _ => some (m.any (fun kv => pyEq v (.str kv.1)))
  | .arr xs => some (xs.any (fun x => pyEq v x))
  | .str t =>
    match v with
    | .str s => some (pyFindN t.data s.data).isSome
    | _ => none
  | _ => none

/-- Python `j[key]` with a string key: dict lookup; raises (`none`) on any
non-dict. -/
def pyIndex (j : Json) (key : String) : Option Json :=
  match j with
  | .obj m => lookupKey m key
  | _ => none

/-- Net effect of the in-place mutation of `manifest['background']` performed
by `build_firefox_extension.py` (only reached when `manifest` is a dict). -/
def setTopBackground (manifest : Json) (bg : Json) : Json :=
  match manifest with
  | .obj m => .obj (setKey m "background" bg)
  | other => other

/-- The manifest rewrite of `build_firefox_extension.py`:
`if 'background' in manifest: if 'service_worker' in manifest['background']:
sw = manifest['background'].pop('service_worker'); ...` — `none` models a
raised exception (Python `in` on a non-iterable, `.pop` on a non-dict,
`.append` on a non-list). -/
def transformForFirefox (manifest : Json) : Option Json :=
  match pyMem (.str "background") manifest with
  | none => none
  | some false => some manifest
  | some true =>
    match pyIndex manifest "background" with
    | none => none
    | some bg =>
      match pyMem (.str "service_worker") bg with
      | none => none
      | some false => some manifest
      | some true =>
        match bg with
        | .obj bgm =>
          match lookupKey bgm "service_worker" with
          | none => none
          | some sw =>
            match pyMem (.str "scripts") (.obj (eraseKey bgm "service_worker")) with
            | none => none
            | some false =>
              some (setTopBackground manifest
                (.obj (setKey (eraseKey bgm "service_worker") "scripts"
                  (.arr [sw]))))
            | some true =>
              match lookupKey (eraseKey bgm "service_worker") "scripts" with
              | none => none
              | some scripts =>
                match pyMem sw scripts with
                | none => none
                | some true =>
                  some (setTopBackground manifest
                    (.obj (eraseKey bgm "service_worker")))
                | some false =>
                  match scripts with
                  | .arr xs =>
                    some (setTopBackground manifest
                      (.obj (setKey (eraseKey bgm "service_worker") "scripts"
                        (.arr (xs ++ [sw])))))
                  | _ => none
        | _ => none

/-- Top-level field access of a JSON document (`none` on non-objects). -/
def topLookup (j : Json) (k : String) : Option Json :=
  match j with
  | .obj m => lookupKey m k
  | _ => none

theorem str_beq_comm (a b : String) : (a == b) = (b == a) := by
  by_cases h : a = b
  · subst h
    rfl
  · have h2 : ¬ b = a := fun e => h e.symm
    simp [h, h2]

theorem lookupKey_setKey_self (m : List (String × Json)) (k : String)
    (v : Json) : lookupKey (setKey m k v) k = some v := by
  unfold setKey
  split
  · rename_i hany
    induction m with
    | nil => simp at hany
    | cons kv rest ih =>
      obtain ⟨k1, v1⟩ := kv
      rw [List.map_cons]
      by_cases hk : k1 = k
      · rw [if_pos (by simp [hk])]
        simp [lookupKey]
      · rw [if_neg (by simp [hk])]
        simp only [lookupKey, if_neg (by simp [hk] : ¬ (k1 == k) = true)]
        apply ih
        simp only [List.any_cons, Bool.or_eq_true] at hany
        rcases hany with h | h
        · exact absurd (by simpa using h) hk
        · exact h
  · induction m with
    | nil => simp [lookupKey]
    | cons kv rest ih =>
      obtain ⟨k1, v1⟩ := kv
      rename_i hany
      rw [List.cons_append]
      by_cases hk : k1 = k
      · exact absurd (by simp [hk]) hany
      · simp only [lookupKey, if_neg (by simp [hk] : ¬ (k1 == k) = true)]
        apply ih
        intro hc
        exact hany (by simp only [List.any_cons, hc, Bool.or_true])

theorem lookupKey_map_set_ne (m : List (String × Json)) (k k' : String)
    (v : Json) (h : k' ≠ k) :
    lookupKey (m.map (fun kv => if kv.1 == k then (k, v) else kv)) k' =
      lookupKey m k' := by
  induction m with
  | nil => rfl
  | cons kv rest ih =>
    obtain ⟨k1, v1⟩ := kv
    rw [List.map_cons]
    by_cases hk : k1 = k
    · rw [if_pos (by simp [hk])]
      have hne1 : ¬ (k == k') = true := by
        simp
        exact fun e => h e.symm
      have hne2 : ¬ (k1 == k') = true := by
        simp [hk]
        exact fun e => h e.symm
      simp only [lookupKey, if_neg hne1, if_neg hne2]
      exact ih
    · rw [if_neg (by simp [hk])]
      simp only [lookupKey]
      split
      · rfl
      · exact ih

theorem lookupKey_append_single_ne (m : List (String × Json)) (k k' : String)
    (v : Json) (h : k' ≠ k) :
    lookupKey (m ++ [(k, v)]) k' = lookupKey m k' := by
  induction m with
  | nil =>
    simp [lookupKey, show ¬ (k == k') = true by
      simp
      exact fun e => h e.symm]
  | cons kv rest ih =>
    obtain ⟨k1, v1⟩ := kv
    rw [List.cons_append]
    simp only [lookupKey]
    split
    · rfl
    · exact ih

theorem lookupKey_setKey_ne (m : List (String × Json)) (k k' : String)
    (v : Json) (h : k' ≠ k) :
    lookupKey (setKey m k v) k' = lookupKey m k' := by
  unfold setKey
  split
  · exact lookupKey_map_set_ne m k k' v h
  · exact lookupKey_append_single_ne m k k' v h

theorem lookupKey_eraseKey_self (m : List (String × Json)) (k : String) :
    lookupKey (eraseKey m k) k = none := by
  unfold eraseKey
  induction m with
  | nil => rfl
  | cons kv rest ih =>
    obtain ⟨k1, v1⟩ := kv
    rw [List.filter_cons]
    by_cases hk : k1 = k
    · rw [if_neg (by simp [hk])]
      exact ih
    · rw [if_pos (by simp [hk])]
      simp only [lookupKey, if_neg (by simp [hk] : ¬ (k1 == k) = true)]
      exact ih

theorem lookupKey_eraseKey_ne (m : List (String × Json)) (k k' : String)
    (h : k' ≠ k) : lookupKey (eraseKey m k) k' = lookupKey m k' := by
  unfold eraseKey
  induction m with
  | nil => rfl
  | cons kv rest ih =>
    obtain ⟨k1, v1⟩ := kv
    rw [List.filter_cons]
    by_cases hk : k1 = k
    · rw [if_neg (by simp [hk])]
      have hne : ¬ (k1 == k') = true := by
        simp [hk]
        exact fun e => h e.symm
      simp only [lookupKey, if_neg hne]
      exact ih
    · rw [if_pos (by simp [hk])]
      simp only [lookupKey]
      split
      · rfl
      · exact ih

theorem any_key_eq_isSome (m : List (String × Json)) (k : String) :
    (m.any (fun kv => kv.1 == k)) = (lookupKey m k).isSome := by
  induction m with
  | nil => rfl
  | cons kv rest ih =>
    obtain ⟨k1, v1⟩ := kv
    simp only [List.any_cons, lookupKey]
    by_cases hk : k1 = k
    · simp [hk]
    · simp only [show (k1 == k) = false by simp [hk], Bool.false_or,
        if_neg (by simp [hk] : ¬ (k1 == k) = true)]
      exact ih

theorem pyMem_key_obj (k : String) (m : List (String × Json)) :
    pyMem (.str k) (.obj m) = some (lookupKey m k).isSome := by
  simp only [pyMem]
  congr 1
  rw [← any_key_eq_isSome]
  congr 1
  funext kv
  show (k == kv.1) = (kv.1 == k)
  exact str_beq_comm k kv.1

/-- Pass-through: a manifest object without a `background` key is returned
unchanged. -/
theorem transform_no_background (m : List (String × Json))
    (h : lookupKey m "background" = none) :
    transformForFirefox (.obj m) = some (.obj m) := by
  simp only [transformForFirefox, pyMem_key_obj, h, Option.isSome_none]

/-- Pass-through: a manifest whose `background` object has no
`service_worker` key is returned unchanged. -/
theorem transform_no_service_worker (m bgm : List (String × Json))
    (h1 : lookupKey m "background" = some (.obj bgm))
    (h2 : lookupKey bgm "service_worker" = none) :
    transformForFirefox (.obj m) = some (.obj m) := by
  simp only [transformForFirefox, pyMem_key_obj, h1, h2, Option.isSome_some,
    Option.isSome_none, pyIndex]

/-- Every successful run of the transform either returns the manifest
unchanged or rewrites exactly the `background` member of a top-level object,
and the rewritten background has no `service_worker` key. -/
theorem transform_success_cases {j j' : Json}
    (h : transformForFirefox j = some j') :
    j' = j ∨
    ∃ m bgm2, j = .obj m ∧
      j' = .obj (setKey m "background" (.obj bgm2)) ∧
      lookupKey bgm2 "service_worker" = none := by
  unfold transformForFirefox at h
  split at h
  · exact absurd h (by simp)
  · exact Or.inl (Option.some.inj h).symm
  · split at h
    · exact absurd h (by simp)
    · rename_i bg hidx
      have hobj : ∃ m, j = .obj m ∧ lookupKey m "background" = some bg := by
        cases j <;> simp_all [pyIndex]
      obtain ⟨m, rfl, hbg⟩ := hobj
      split at h
      · exact absurd h (by simp)
      · exact Or.inl (Option.some.inj h).symm
      · split at h
        · rename_i bgm heqbg
          split at h
          · exact absurd h (by simp)
          · rename_i sw hsw
            split at h
            · exact absurd h (by simp)
            · -- scripts absent: create it as a one-element list
              refine Or.inr ⟨m, setKey (eraseKey bgm "service_worker")
                "scripts" (.arr [sw]), rfl, ?_, ?_⟩
              · simpa [setTopBackground] using (Option.some.inj h).symm
              · rw [lookupKey_setKey_ne _ _ _ _ (by decide)]
                exact lookupKey_eraseKey_self bgm "service_worker"
            · split at h
              · exact absurd h (by simp)
              · rename_i scripts hscr
                split at h
                · exact absurd h (by simp)
                · -- value already present: background only loses the key
                  refine Or.inr ⟨m, eraseKey bgm "service_worker", rfl,
                    ?_, ?_⟩
                  · simpa [setTopBackground] using (Option.some.inj h).symm
                  · exact lookupKey_eraseKey_self bgm "service_worker"
                · split at h
                  · rename_i xs heqscr
                    -- append the value to the existing list
                    refine Or.inr ⟨m, setKey (eraseKey bgm "service_worker")
                      "scripts" (.arr (xs ++ [sw])), rfl, ?_, ?_⟩
                    · simpa [setTopBackground] using (Option.some.inj h).symm
                    · rw [lookupKey_setKey_ne _ _ _ _ (by decide)]
                      exact lookupKey_eraseKey_self bgm "service_worker"
                  all_goals exact absurd h (by simp)
        all_goals exact absurd h (by simp)

/-- C4 (amended): for every manifest whose `background` object contains a
`service_worker` key, and whose `scripts` key under `background` is either
absent or a list, the transform removes `service_worker` and merges its value
into `background.scripts`: a one-element list is created when `scripts` is
absent, the value is appended when the list lacks it (Python `in` on the
list), and the list is left unchanged when the value is already present (no
duplicate append).  When `scripts` exists but is not a list and lacks the
value, the code raises instead (see the counterexample). -/
theorem c4_transform_merges (m bgm : List (String × Json)) (sw : Json)
    (hbg : lookupKey m "background" = some (.obj bgm))
    (hsw : lookupKey bgm "service_worker" = some sw) :
    (lookupKey bgm "scripts" = none →
      ∃ bgm2, transformForFirefox (.obj m) =
          some (.obj (setKey m "background" (.obj bgm2))) ∧
        lookupKey bgm2 "service_worker" = none ∧
        lookupKey bgm2 "scripts" = some (.arr [sw])) ∧
    (∀ xs, lookupKey bgm "scripts" = some (.arr xs) →
      xs.any (fun x => pyEq sw x) = true →
      ∃ bgm2, transformForFirefox (.obj m) =
          some (.obj (setKey m "background" (.obj bgm2))) ∧
        lookupKey bgm2 "service_worker" = none ∧
        lookupKey bgm2 "scripts" = some (.arr xs)) ∧
    (∀ xs, lookupKey bgm "scripts" = some (.arr xs) →
      xs.any (fun x => pyEq sw x) = false →
      ∃ bgm2, transformForFirefox (.obj m) =
          some (.obj (setKey m "background" (.obj bgm2))) ∧
        lookupKey bgm2 "service_worker" = none ∧
        lookupKey bgm2 "scripts" = some (.arr (xs ++ [sw]))) := by
  have h1 : pyMem (.str "background") (.obj m) = some true := by
    rw [pyMem_key_obj, hbg]
    rfl
  have h2 : pyIndex (.obj m) "background" = some (.obj bgm) := by
    simp [pyIndex, hbg]
  have h3 : pyMem (.str "service_worker") (.obj bgm) = some true := by
    rw [pyMem_key_obj, hsw]
    rfl
  have herase : lookupKey (eraseKey bgm "service_worker") "scripts" =
      lookupKey bgm "scripts" :=
    lookupKey_eraseKey_ne bgm "service_worker" "scripts" (by decide)
  refine ⟨?_, ?_, ?_⟩
  · intro hnone
    have h4 : pyMem (.str "scripts")
        (.obj (eraseKey bgm "service_worker")) = some false := by
      rw [pyMem_key_obj, herase, hnone]
      rfl
    refine ⟨setKey (eraseKey bgm "service_worker") "scripts" (.arr [sw]),
      ?_, ?_, ?_⟩
    · simp only [transformForFirefox, h1, h2, h3, hsw, h4, setTopBackground]
    · rw [lookupKey_setKey_ne _ _ _ _ (by decide)]
      exact lookupKey_eraseKey_self bgm "service_worker"
    · exact lookupKey_setKey_self _ "scripts" (.arr [sw])
  · intro xs hxs hmem
    have h4 : pyMem (.str "scripts")
        (.obj (eraseKey bgm "service_worker")) = some true := by
      rw [pyMem_key_obj, herase, hxs]
      rfl
    have h5 : lookupKey (eraseKey bgm "service_worker") "scripts" =
        some (.arr xs) := herase.trans hxs
    have h6 : pyMem sw (.arr xs) = some true := by
      simp [pyMem, hmem]
    refine ⟨eraseKey bgm "service_worker", ?_,
      lookupKey_eraseKey_self bgm "service_worker", h5⟩
    simp only [transformForFirefox, h1, h2, h3, hsw, h4, h5, h6,
      setTopBackground]
  · intro xs hxs hmem
    have h4 : pyMem (.str "scripts")
        (.obj (eraseKey bgm "service_worker")) = some true := by
      rw [pyMem_key_obj, herase, hxs]
      rfl
    have h5 : lookupKey (eraseKey bgm "service_worker") "scripts" =
        some (.arr xs) := herase.trans hxs
    have h6 : pyMem sw (.arr xs) = some false := by
      simp [pyMem, hmem]
    refine ⟨setKey (eraseKey bgm "service_worker") "scripts"
      (.arr (xs ++ [sw])), ?_, ?_, ?_⟩
    · simp only [transformForFirefox, h1, h2, h3, hsw, h4, h5, h6,
        setTopBackground]
    · rw [lookupKey_setKey_ne _ _ _ _ (by decide)]
      exact lookupKey_eraseKey_self bgm "service_worker"
    · exact lookupKey_setKey_self _ "scripts" (.arr (xs ++ [sw]))

/-- C4 counterexample: a manifest with `background.service_worker = "bg.js"`
and `background.scripts = "x"` (a string, not a list, lacking the value):
Python reaches `manifest['background']['scripts'].append(sw)` and raises
`AttributeError` — the transform does not append, contradicting the claim's
unconditional "appends the value if scripts exists and lacks it". -/
theorem c4_counterexample :
    transformForFirefox (.obj [("background", .obj
      [("service_worker", .str "bg.js"), ("scripts", .str "x")])]) =
      none := by
  rfl

theorem c4_witness :
    (lookupKey [("background", Json.obj
        [("service_worker", Json.str "bg.js")])] "background" =
      some (.obj [("service_worker", Json.str "bg.js")]) ∧
      lookupKey [("service_worker", Json.str "bg.js")] "service_worker" =
        some (.str "bg.js") ∧
      lookupKey [("service_worker", Json.str "bg.js")] "scripts" = none) ∧
    (∃ bgm2, transformForFirefox (.obj [("background", Json.obj
        [("service_worker", Json.str "bg.js")])]) =
        some (.obj (setKey [("background", Json.obj
          [("service_worker", Json.str "bg.js")])] "background"
          (.obj bgm2))) ∧
      lookupKey bgm2 "service_worker" = none ∧
      lookupKey bgm2 "scripts" = some (.arr [.str "bg.js"])) :=
  ⟨⟨rfl, rfl, rfl⟩,
    (c4_transform_merges [("background", Json.obj
        [("service_worker", Json.str "bg.js")])]
      [("service_worker", Json.str "bg.js")] (.str "bg.js") rfl rfl).1 rfl⟩

/-- C7 (amended): the transform passes a manifest object through unchanged
when it lacks a `background` key, or when its `background` value is an object
lacking the `service_worker` key; and re-running the transform on any
successful output is a no-op.  (A non-object `background` on which Python's
membership test for `'service_worker'` succeeds makes the code raise instead
of passing through — see the counterexample.) -/
theorem c7_transform_idempotent :
    (∀ m : List (String × Json), lookupKey m "background" = none →
      transformForFirefox (.obj m) = some (.obj m)) ∧
    (∀ m bgm : List (String × Json),
      lookupKey m "background" = some (.obj bgm) →
      lookupKey bgm "service_worker" = none →
      transformForFirefox (.obj m) = some (.obj m)) ∧
    (∀ j j', transformForFirefox j = some j' →
      transformForFirefox j' = some j') := by
  refine ⟨transform_no_background, transform_no_service_worker, ?_⟩
  intro j j' h
  rcases transform_success_cases h with rfl | ⟨m, bgm2, rfl, rfl, hnone⟩
  · exact h
  · exact transform_no_service_worker _ bgm2
      (lookupKey_setKey_self m "background" (.obj bgm2)) hnone

/-- C7 counterexample: the manifest `\x7b"background": "service_worker"\x7d`
has no `service_worker` key under `background` (a string has no keys), yet
the transform does not return it unchanged: Python's `'service_worker' in
manifest['background']` is a substring test that succeeds, and the subsequent
`.pop` on a string raises `AttributeError`. -/
theorem c7_counterexample :
    transformForFirefox (.obj [("background", .str "service_worker")]) =
      none := by
  rfl

theorem c7_witness :
    (lookupKey ([] : List (String × Json)) "background" = none ∧
      transformForFirefox (.obj []) = some (.obj [])) ∧
    transformForFirefox
        (.obj [("background", .obj [("scripts", .arr [.str "bg.js"])])]) =
      some (.obj [("background", .obj [("scripts", .arr [.str "bg.js"])])]) :=
  ⟨⟨rfl, c7_transform_idempotent.1 [] rfl⟩,
    c7_transform_idempotent.2.2
      (.obj [("background", .obj [("service_worker", .str "bg.js")])])
      (.obj [("background", .obj [("scripts", .arr [.str "bg.js"])])]) rfl⟩

/-- C2 (amended): every successful transform preserves every top-level
manifest field other than `background` as a JSON value (the output file is
re-serialized with 4-space indentation, so byte-identity of the other fields
holds only when the source is already in that format — see the
counterexample). -/
theorem c2_fields_preserved :
    ∀ j j' : Json, transformForFirefox j = some j' →
      ∀ k, k ≠ "background" → topLookup j' k = topLookup j k := by
  intro j j' h k hk
  rcases transform_success_cases h with rfl | ⟨m, bgm2, rfl, rfl, _⟩
  · rfl
  · simp only [topLookup]
    exact lookupKey_setKey_ne m "background" k (.obj bgm2) hk

theorem c2_witness :
    (transformForFirefox (.obj [("name", .str "kurate"),
        ("background", .obj [("service_worker", .str "bg.js")])]) =
      some (.obj [("name", .str "kurate"),
        ("background", .obj [("scripts", .arr [.str "bg.js"])])]) ∧
      "name" ≠ "background") ∧
    topLookup (.obj [("name", .str "kurate"),
        ("background", .obj [("scripts", .arr [.str "bg.js"])])]) "name" =
      topLookup (.obj [("name", .str "kurate"),
        ("background", .obj [("service_worker", .str "bg.js")])]) "name" :=
  ⟨⟨rfl, by decide⟩,
    c2_fields_preserved (.obj [("name", .str "kurate"),
        ("background", .obj [("service_worker", .str "bg.js")])])
      (.obj [("name", .str "kurate"),
        ("background", .obj [("scripts", .arr [.str "bg.js"])])])
      rfl "name" (by decide)⟩

/-! Byte-level model of the manifest file round trip in
`build_firefox_extension.py`: `json.load` on the source bytes and
`json.dump(manifest, f, indent=4)` on the rewritten value. -/

/-- JSON whitespace accepted between tokens. -/
def isWsChar (c : Char) : Bool :=
  c == ' ' || c == '\t' || c == '\n' || c == '\r'

/-- Drop leading JSON whitespace. -/
def skipWs (s : List Char) : List Char := s.dropWhile isWsChar

/-- Body of a JSON string up to the closing quote.  Escape sequences are
outside the modelled fragment (`none`); the manifests handled by the build
scripts contain none. -/
def parseStringChars : List Char → Option (List Char × List Char)
  | [] => none
  | c :: rest =>
    if c == '"' then some ([], rest)
    else if c == '\\' then none
    else
      match parseStringChars rest with
      | some (s, r) => some (c :: s, r)
      | none => none

/-- Decimal digits to a number. -/
def digitsToNat (ds : List Char) : Nat :=
  ds.foldl (fun a c => a * 10 + (c.toNat - 48)) 0

mutual
/-- Model of `json.load` restricted to the fragment the build scripts use:
objects, arrays, escape-free strings, non-negative integer literals, `true`,
`false`, `null`, with arbitrary interleaving whitespace.  Inputs outside the
fragment give `none`.  Fuel bounds the recursion depth. -/
def parseValue (fuel : Nat) (input : List Char) :
    Option (Json × List Char) :=
  match fuel with
  | 0 => none
  | f + 1 =>
    match skipWs input with
    | [] => none
    | c :: rest =>
      if c == '\x7b' then
        match skipWs rest with
        | '\x7d' :: r2 => some (.obj [], r2)
        | _ => parseMembers f rest []
      else if c == '[' then
        match skipWs rest with
        | ']' :: r2 => some (.arr [], r2)
        | _ => parseElems f rest []
      else if c == '"' then
        match parseStringChars rest with
        | some (s, r) => some (.str (String.mk s), r)
        | none => none
      else if c.isDigit then
        some (.num (digitsToNat ((c :: rest).takeWhile Char.isDigit)),
          (c :: rest).dropWhile Char.isDigit)
      else if "true".data.isPrefixOf (c :: rest) then
        some (.bool true, (c :: rest).drop 4)
      else if "false".data.isPrefixOf (c :: rest) then
        some (.bool false, (c :: rest).drop 5)
      else if "null".data.isPrefixOf (c :: rest) then
        some (.null, (c :: rest).drop 4)
      else none
def parseMembers (fuel : Nat) (input : List Char)
    (acc : List (String × Json)) : Option (Json × List Char) :=
  match fuel with
  | 0 => none
  | f + 1 =>
    match skipWs input with
    | '"' :: rest =>
      match parseStringChars rest with
      | none => none
      | some (k, r1) =>
        match skipWs r1 with
        | ':' :: r2 =>
          match parseValue f r2 with
          | none => none
          | some (v, r3) =>
            match skipWs r3 with
            | ',' :: r4 => parseMembers f r4 (acc ++ [(String.mk k, v)])
            | '\x7d' :: r4 => some (.obj (acc ++ [(String.mk k, v)]), r4)
            | _ => none
        | _ => none
    | _ => none
def parseElems (fuel : Nat) (input : List Char) (acc : List Json) :
    Option (Json × List Char) :=
  match fuel with
  | 0 => none
  | f + 1 =>
    match parseValue f input with
    | none => none
    | some (v, r1) =>
      match skipWs r1 with
      | ',' :: r2 => parseElems f r2 (acc ++ [v])
      | ']' :: r2 => some (.arr (acc ++ [v]), r2)
      | _ => none
end

/-- Model of `json.load` of a whole document (trailing whitespace allowed). -/
def loads (s : List Char) : Option Json :=
  match parseValue (s.length + 1) s with
  | some (j, rest) => if skipWs rest = [] then some j else none
  | none => none

/-- Indentation used by `json.dump(..., indent=4)`. -/
def nSpaces (n : Nat) : List Char := List.replicate n ' '

mutual
/-- Model of `json.dump(v, f, indent=4)`: 4-space indentation per level, item
separator `","` followed by a newline, key separator `": "`, empty containers
on one line, no trailing newline. -/
def dumpValue (level : Nat) : Json → List Char
  | .null => "null".data
  | .bool true => "true".data
  | .bool false => "false".data
  | .num n => (toString n).data
  | .str s => '"' :: s.data ++ ['"']
  | .arr [] => "[]".data
  | .arr (x :: xs) =>
    '[' :: '\n' :: nSpaces (4 * (level + 1)) ++ dumpValue (level + 1) x ++
      dumpElems (level + 1) xs ++ '\n' :: nSpaces (4 * level) ++ [']']
  | .obj [] => "\x7b\x7d".data
  | .obj (kv :: kvs) =>
    '\x7b' :: '\n' :: nSpaces (4 * (level + 1)) ++
      dumpMember (level + 1) kv ++ dumpMembers (level + 1) kvs ++
      '\n' :: nSpaces (4 * level) ++ ['\x7d']
def dumpMember (level : Nat) : String × Json → List Char
  | (k, v) => '"' :: k.data ++ '"' :: ':' :: ' ' :: dumpValue level v
def dumpElems (level : Nat) : List Json → List Char
  | [] => []
  | x :: xs =>
    ',' :: '\n' :: nSpaces (4 * level) ++ dumpValue level x ++
      dumpElems level xs
def dumpMembers (level : Nat) : List (String × Json) → List Char
  | [] => []
  | kv :: kvs =>
    ',' :: '\n' :: nSpaces (4 * level) ++ dumpMember level kv ++
      dumpMembers level kvs
end

/-- The manifest step of `build_firefox_extension.py` at the byte level:
read `manifest.json`, rewrite the `background` section, and write the result
with `json.dump(manifest, f, indent=4)`; `none` models a raised exception. -/
def firefoxManifestRewrite (src : List Char) : Option (List Char) :=
  match loads src with
  | none => none
  | some manifest =>
    match transformForFirefox manifest with
    | none => none
    | some manifest2 => some (dumpValue 0 manifest2)

set_option maxRecDepth 8192 in
/-- C2 counterexample: a compactly serialized source manifest.  The archived
`manifest.json` is re-serialized with 4-space indentation, so the source's
byte rendering of the untouched `name` field (`"name":"kurate"`, present at
offset 1 of the source) occurs nowhere in the output: the other fields are
value-identical but not byte-identical to the source file. -/
theorem c2_counterexample :
    firefoxManifestRewrite
        "\x7b\"name\":\"kurate\",\"background\":\x7b\"service_worker\":\"bg.js\"\x7d\x7d".data =
      some "\x7b\n    \"name\": \"kurate\",\n    \"background\": \x7b\n        \"scripts\": [\n            \"bg.js\"\n        ]\n    \x7d\n\x7d".data ∧
    pyFindN
      "\x7b\n    \"name\": \"kurate\",\n    \"background\": \x7b\n        \"scripts\": [\n            \"bg.js\"\n        ]\n    \x7d\n\x7d".data
      "\"name\":\"kurate\"".data = none ∧
    pyFindN
      "\x7b\"name\":\"kurate\",\"background\":\x7b\"service_worker\":\"bg.js\"\x7d\x7d".data
      "\"name\":\"kurate\"".data = some 1 := by
  refine ⟨rfl, by decide, by decide⟩

/-! Staging-tree and archive model for `build_chrome_extension.py` and
`build_firefox_extension.py`: `os.walk` over the staged directory, one zip
entry per file named `os.path.relpath(file_path, dist_dir).replace(os.sep,
'/')`, with the chrome pipeline skipping files whose name ends in `.md`. -/

/-- A directory: file names plus named subdirectories, in listing order. -/
inductive DirTree where
  | node (files : List (List Char)) (dirs : List (List Char × DirTree))

mutual
/-- Arcnames written by the zip loop: `os.walk` yields each directory's files
(top-down, subdirectories in listing order), the exclusion predicate is
applied to the bare file name, and entries of a subdirectory gain the
directory name and a `/` separator. -/
def zipWalk (exclude : List Char → Bool) : DirTree → List (List Char)
  | .node files dirs =>
    files.filter (fun file => !exclude file) ++ zipWalkDirs exclude dirs
def zipWalkDirs (exclude : List Char → Bool) :
    List (List Char × DirTree) → List (List Char)
  | [] => []
  | (d, t) :: rest =>
    (zipWalk exclude t).map (fun e => d ++ '/' :: e) ++
      zipWalkDirs exclude rest
end

/-- The chrome exclusion suffix (`file.endswith('.md')`). -/
def mdSuffix : List Char := ".md".data

/-- Entries of `kurate-chrome.zip` for a staged tree. -/
def chromeZipEntries (t : DirTree) : List (List Char) :=
  zipWalk (fun file => mdSuffix.isSuffixOf file) t

/-- Entries of `kurate-firefox.zip` for a staged tree (no exclusion). -/
def firefoxZipEntries (t : DirTree) : List (List Char) :=
  zipWalk (fun _ => false) t

mutual
/-- Specification side: the relative paths (component lists, in walk order)
of all files under a staging tree. -/
def treeFiles : DirTree → List (List (List Char))
  | .node files dirs => files.map (fun f => [f]) ++ treeFilesDirs dirs
def treeFilesDirs : List (List Char × DirTree) → List (List (List Char))
  | [] => []
  | (d, t) :: rest =>
    (treeFiles t).map (fun p => d :: p) ++ treeFilesDirs rest
end

/-- Last component of a relative path (the bare file name). -/
def baseName : List (List Char) → List Char
  | [] => []
  | [f] => f
  | _ :: rest => baseName rest

/-- Forward-slash join of path components (the arcname of a file). -/
def joinSlash : List (List Char) → List Char
  | [] => []
  | [c] => c
  | c :: rest => c ++ '/' :: joinSlash rest

mutual
/-- Filesystem well-formedness: sibling names are distinct and no name
contains the separator `/`. -/
def wfTree : DirTree → Prop
  | .node files dirs =>
    files.Nodup ∧ (dirs.map Prod.fst).Nodup ∧
    (∀ f ∈ files, '/' ∉ f) ∧ (∀ dt ∈ dirs, '/' ∉ dt.1) ∧ wfDirs dirs
def wfDirs : List (List Char × DirTree) → Prop
  | [] => True
  | (_, t) :: rest => wfTree t ∧ wfDirs rest
end

mutual
theorem treeFiles_ne_nil (t : DirTree) : ∀ p ∈ treeFiles t, p ≠ [] := by
  match t with
  | .node files dirs =>
    intro p hp
    rcases List.mem_append.mp hp with h | h
    · obtain ⟨f, _, rfl⟩ := List.mem_map.mp h
      simp
    · exact treeFilesDirs_ne_nil dirs p h
theorem treeFilesDirs_ne_nil (l : List (List Char × DirTree)) :
    ∀ p ∈ treeFilesDirs l, p ≠ [] := by
  match l with
  | [] => intro p hp; simp [treeFilesDirs] at hp
  | (d, t) :: rest =>
    intro p hp
    rcases List.mem_append.mp hp with h | h
    · obtain ⟨q, _, rfl⟩ := List.mem_map.mp h
      simp
    · exact treeFilesDirs_ne_nil rest p h
end

mutual
theorem zipWalk_eq (ex : List Char → Bool) (t : DirTree) :
    zipWalk ex t =
      ((treeFiles t).filter (fun p => !ex (baseName p))).map joinSlash := by
  match t with
  | .node files dirs =>
    have hd := zipWalkDirs_eq ex dirs
    simp only [zipWalk, treeFiles, List.filter_append, List.map_append, hd]
    congr 1
    rw [List.filter_map, List.map_map]
    exact (List.map_id _).symm
theorem zipWalkDirs_eq (ex : List Char → Bool)
    (l : List (List Char × DirTree)) :
    zipWalkDirs ex l =
      ((treeFilesDirs l).filter (fun p => !ex (baseName p))).map joinSlash := by
  match l with
  | [] => rfl
  | (d, t) :: rest =>
    have h1 := zipWalk_eq ex t
    have h2 := zipWalkDirs_eq ex rest
    simp only [zipWalkDirs, treeFilesDirs, List.filter_append,
      List.map_append, h2]
    congr 1
    rw [h1, List.filter_map, List.map_map, List.map_map]
    have hcong : ∀ p ∈ treeFiles t,
        ((fun p => !ex (baseName p)) ∘ fun p => d :: p) p =
          (fun p => !ex (baseName p)) p := by
      intro p hp
      match p, treeFiles_ne_nil t p hp with
      | x :: xs, _ => rfl
    rw [List.filter_congr hcong]
    apply List.map_congr_left
    intro p hp
    have := treeFiles_ne_nil t p (List.mem_filter.mp hp).1
    match p, this with
    | x :: xs, _ => rfl
end

theorem mem_treeFilesDirs {l : List (List Char × DirTree)}
    {p : List (List Char)} (h : p ∈ treeFilesDirs l) :
    ∃ d t q, (d, t) ∈ l ∧ q ∈ treeFiles t ∧ p = d :: q := by
  induction l with
  | nil => simp [treeFilesDirs] at h
  | cons dt rest ih =>
    obtain ⟨d, t⟩ := dt
    rcases List.mem_append.mp h with h1 | h1
    · obtain ⟨q, hq, rfl⟩ := List.mem_map.mp h1
      exact ⟨d, t, q, by simp, hq, rfl⟩
    · obtain ⟨d', t', q, hmem, hq, rfl⟩ := ih h1
      exact ⟨d', t', q, by simp [hmem], hq, rfl⟩

mutual
theorem treeFiles_slashfree (t : DirTree) (h : wfTree t) :
    ∀ p ∈ treeFiles t, ∀ c ∈ p, '/' ∉ c := by
  match t with
  | .node files dirs =>
    obtain ⟨hf, hd, hsf, hsd, hw⟩ := h
    intro p hp c hc
    rcases List.mem_append.mp hp with h1 | h1
    · obtain ⟨f, hfmem, rfl⟩ := List.mem_map.mp h1
      rw [List.mem_singleton] at hc
      rw [hc]
      exact hsf f hfmem
    · exact treeFilesDirs_slashfree dirs hsd hw p h1 c hc
theorem treeFilesDirs_slashfree (l : List (List Char × DirTree))
    (hnames : ∀ dt ∈ l, '/' ∉ dt.1) (hwf : wfDirs l) :
    ∀ p ∈ treeFilesDirs l, ∀ c ∈ p, '/' ∉ c := by
  match l with
  | [] => intro p hp; simp [treeFilesDirs] at hp
  | (d, t) :: rest =>
    obtain ⟨hw1, hw2⟩ := hwf
    intro p hp c hc
    rcases List.mem_append.mp hp with h1 | h1
    · obtain ⟨q, hq, rfl⟩ := List.mem_map.mp h1
      rcases List.mem_cons.mp hc with hceq | hc2
      · rw [hceq]
        exact hnames (d, t) (by simp)
      · exact treeFiles_slashfree t hw1 q hq c hc2
    · exact treeFilesDirs_slashfree rest
        (fun dt hm => hnames dt (List.mem_cons_of_mem _ hm)) hw2 p h1 c hc
end

mutual
theorem treeFiles_nodup (t : DirTree) (h : wfTree t) :
    (treeFiles t).Nodup := by
  match t with
  | .node files dirs =>
    obtain ⟨hf, hd, hsf, hsd, hw⟩ := h
    refine List.Nodup.append ?_ (treeFilesDirs_nodup dirs hd hw) ?_
    · exact List.Nodup.map_on (fun x _ y _ e => by simpa using e) hf
    · intro p hp1 hp2
      obtain ⟨f, _, rfl⟩ := List.mem_map.mp hp1
      obtain ⟨d, t', q, _, hq, heq⟩ := mem_treeFilesDirs hp2
      have := treeFiles_ne_nil t' q hq
      cases q with
      | nil => exact this rfl
      | cons a b => simp at heq
theorem treeFilesDirs_nodup (l : List (List Char × DirTree))
    (hnames : (l.map Prod.fst).Nodup) (hwf : wfDirs l) :
    (treeFilesDirs l).Nodup := by
  match l with
  | [] => exact List.nodup_nil
  | (d, t) :: rest =>
    obtain ⟨hw1, hw2⟩ := hwf
    rw [List.map_cons, List.nodup_cons] at hnames
    refine List.Nodup.append ?_
      (treeFilesDirs_nodup rest hnames.2 hw2) ?_
    · exact List.Nodup.map_on
        (fun x _ y _ e => by simpa using (List.cons.injEq _ _ _ _ ▸ e).2)
        (treeFiles_nodup t hw1)
    · intro p hp1 hp2
      obtain ⟨q, _, rfl⟩ := List.mem_map.mp hp1
      obtain ⟨d', t', q', hmem, _, heq⟩ := mem_treeFilesDirs hp2
      have hd' : d' ∈ rest.map Prod.fst := List.mem_map.mpr ⟨(d', t'), hmem, rfl⟩
      have : d = d' := by
        have := (List.cons.injEq _ _ _ _ ▸ heq).1
        exact this
      exact hnames.1 (this ▸ hd')
end

theorem append_slash_inj {a b x y : List Char} (ha : '/' ∉ a) (hb : '/' ∉ b)
    (h : a ++ '/' :: x = b ++ '/' :: y) : a = b ∧ x = y := by
  induction a generalizing b with
  | nil =>
    cases b with
    | nil => simpa using h
    | cons c bs =>
      rw [List.nil_append, List.cons_append] at h
      obtain ⟨rfl, h2⟩ := List.cons.inj h
      exact absurd (by simp) hb
  | cons c as ih =>
    cases b with
    | nil =>
      rw [List.nil_append, List.cons_append] at h
      obtain ⟨rfl, h2⟩ := List.cons.inj h
      exact absurd (by simp) ha
    | cons c' bs =>
      rw [List.cons_append, List.cons_append] at h
      obtain ⟨rfl, h2⟩ := List.cons.inj h
      have := ih (fun hc => ha (List.mem_cons_of_mem _ hc))
        (fun hc => hb (List.mem_cons_of_mem _ hc)) h2
      exact ⟨by rw [this.1], this.2⟩

theorem joinSlash_inj {p q : List (List Char)}
    (hp : ∀ c ∈ p, '/' ∉ c) (hq : ∀ c ∈ q, '/' ∉ c)
    (hp0 : p ≠ []) (hq0 : q ≠ []) (h : joinSlash p = joinSlash q) : p = q := by
  induction p generalizing q with
  | nil => exact absurd rfl hp0
  | cons c1 p' ih =>
    cases q with
    | nil => exact absurd rfl hq0
    | cons c2 q' =>
      cases p' with
      | nil =>
        cases q' with
        | nil =>
          have hj : c1 = c2 := h
          rw [hj]
        | cons c3 q'' =>
          exfalso
          have hj : c1 = c2 ++ '/' :: joinSlash (c3 :: q'') := h
          apply hp c1 (by simp)
          rw [hj]
          simp
      | cons c3 p'' =>
        cases q' with
        | nil =>
          exfalso
          have hj : c1 ++ '/' :: joinSlash (c3 :: p'') = c2 := h
          apply hq c2 (by simp)
          rw [← hj]
          simp
        | cons c4 q'' =>
          have hj : c1 ++ '/' :: joinSlash (c3 :: p'') =
              c2 ++ '/' :: joinSlash (c4 :: q'') := h
          obtain ⟨he, hj2⟩ := append_slash_inj
            (hp c1 (by simp)) (hq c2 (by simp)) hj
          subst he
          have := ih (fun c hc => hp c (List.mem_cons_of_mem _ hc))
            (fun c hc => hq c (List.mem_cons_of_mem _ hc))
            (by simp) (by simp) hj2
          rw [this]

theorem entries_nodup (t : DirTree) (h : wfTree t) :
    ((treeFiles t).map joinSlash).Nodup :=
  List.Nodup.map_on
    (fun p hp q hq he => joinSlash_inj
      (treeFiles_slashfree t h p hp) (treeFiles_slashfree t h q hq)
      (treeFiles_ne_nil t p hp) (treeFiles_ne_nil t q hq) he)
    (treeFiles_nodup t h)

mutual
theorem zipWalk_sublist (ex : List Char → Bool) (t : DirTree) :
    List.Sublist (zipWalk ex t) (zipWalk (fun _ => false) t) := by
  match t with
  | .node files dirs =>
    simp only [zipWalk]
    refine List.Sublist.append ?_ (zipWalkDirs_sublist ex dirs)
    have : files.filter (fun file => !(fun _ : List Char => false) file) =
        files := List.filter_true files
    rw [this]
    exact List.filter_sublist files
theorem zipWalkDirs_sublist (ex : List Char → Bool)
    (l : List (List Char × DirTree)) :
    List.Sublist (zipWalkDirs ex l) (zipWalkDirs (fun _ => false) l) := by
  match l with
  | [] => exact List.Sublist.refl _
  | (d, t) :: rest =>
    simp only [zipWalkDirs]
    exact List.Sublist.append (List.Sublist.map _ (zipWalk_sublist ex t))
      (zipWalkDirs_sublist ex rest)
end

/-- C5: for every well-formed staging tree, the chrome archive holds exactly
one entry per file whose name does not end in `.md`, the firefox archive one
entry per file with no exclusion, each named by the file's path relative to
the staging root joined with forward slashes; entry names are pairwise
distinct. -/
theorem c5_archive_entries (t : DirTree) (h : wfTree t) :
    chromeZipEntries t =
      ((treeFiles t).filter
        (fun p => !(mdSuffix.isSuffixOf (baseName p)))).map joinSlash ∧
    firefoxZipEntries t = (treeFiles t).map joinSlash ∧
    (chromeZipEntries t).Nodup ∧ (firefoxZipEntries t).Nodup := by
  have hff : firefoxZipEntries t = (treeFiles t).map joinSlash := by
    have he := zipWalk_eq (fun _ => false) t
    simp only [Bool.not_false, List.filter_true] at he
    exact he
  have hnod : (firefoxZipEntries t).Nodup := by
    rw [hff]
    exact entries_nodup t h
  exact ⟨zipWalk_eq _ t, hff,
    List.Nodup.sublist (zipWalk_sublist _ t) hnod, hnod⟩

theorem c5_witness :
    wfTree (.node ["manifest.json".data, "icon.png".data, "README.md".data]
      [("sub".data, .node ["a.js".data] [])]) ∧
    (chromeZipEntries (.node ["manifest.json".data, "icon.png".data,
        "README.md".data] [("sub".data, .node ["a.js".data] [])]) =
      ((treeFiles (.node ["manifest.json".data, "icon.png".data,
        "README.md".data] [("sub".data, .node ["a.js".data] [])])).filter
        (fun p => !(mdSuffix.isSuffixOf (baseName p)))).map joinSlash ∧
    firefoxZipEntries (.node ["manifest.json".data, "icon.png".data,
        "README.md".data] [("sub".data, .node ["a.js".data] [])]) =
      (treeFiles (.node ["manifest.json".data, "icon.png".data,
        "README.md".data] [("sub".data, .node ["a.js".data] [])])).map
        joinSlash ∧
    (chromeZipEntries (.node ["manifest.json".data, "icon.png".data,
        "README.md".data] [("sub".data, .node ["a.js".data] [])])).Nodup ∧
    (firefoxZipEntries (.node ["manifest.json".data, "icon.png".data,
        "README.md".data] [("sub".data, .node ["a.js".data] [])])).Nodup) :=
  have hwf : wfTree (.node ["manifest.json".data, "icon.png".data,
      "README.md".data] [("sub".data, .node ["a.js".data] [])]) :=
    ⟨by decide, by decide, by decide, by decide,
      ⟨by decide, by decide, by decide, by decide, trivial⟩, trivial⟩
  ⟨hwf, c5_archive_entries _ hwf⟩

/-- C10: archives contain only file entries — every firefox (hence chrome)
entry is the joined relative path of some file of the tree — and an empty
directory contributes no entry: adding one to a staging tree leaves both
pipelines' entry lists unchanged. -/
theorem c10_only_files :
    (∀ t : DirTree, ∀ e ∈ firefoxZipEntries t,
      ∃ p ∈ treeFiles t, joinSlash p = e) ∧
    (∀ (name : List Char) files dirs,
      firefoxZipEntries (.node files ((name, .node [] []) :: dirs)) =
        firefoxZipEntries (.node files dirs) ∧
      chromeZipEntries (.node files ((name, .node [] []) :: dirs)) =
        chromeZipEntries (.node files dirs)) := by
  constructor
  · intro t e he
    have hff : firefoxZipEntries t = (treeFiles t).map joinSlash := by
      have h := zipWalk_eq (fun _ => false) t
      simp only [Bool.not_false, List.filter_true] at h
      exact h
    rw [hff] at he
    obtain ⟨p, hp, rfl⟩ := List.mem_map.mp he
    exact ⟨p, hp, rfl⟩
  · intro name files dirs
    constructor
    · simp [firefoxZipEntries, zipWalk, zipWalkDirs]
    · simp [chromeZipEntries, zipWalk, zipWalkDirs]

theorem c10_witness :
    ("a.txt".data ∈ firefoxZipEntries (.node ["a.txt".data] []) ∧
      firefoxZipEntries (.node ["b.js".data]
          [("empty".data, .node [] [])]) =
        firefoxZipEntries (.node ["b.js".data] [])) ∧
    (∃ p ∈ treeFiles (.node ["a.txt".data] []),
      joinSlash p = "a.txt".data) :=
  ⟨⟨by decide, (c10_only_files.2 "empty".data ["b.js".data] []).1⟩,
    c10_only_files.1 (.node ["a.txt".data] []) "a.txt".data (by decide)⟩

/-! Persistent-storage effects of the two pipeline orchestrators: existence
of the staging directory and of the output archive, with the operations in
the order the scripts perform them. -/

/-- Which of the two pipeline artifacts exist on persistent storage. -/
structure FsState where
  stagingExists : Bool
  zipExists : Bool
deriving DecidableEq

/-- The storage-changing operations of the build scripts, in source order:
stale-state removal, `shutil.copytree`, `zipfile.ZipFile(zip_path, 'w')`
(which creates the archive), and the final `shutil.rmtree`. -/
inductive FsOp where
  | removeStaging
  | removeZip
  | copyTree
  | createZip
  | cleanupStaging

/-- Effect of one operation on the artifact-existence state. -/
def applyFsOp (s : FsState) : FsOp → FsState
  | .removeStaging => { s with stagingExists := false }
  | .removeZip => { s with zipExists := false }
  | .copyTree => { s with stagingExists := true }
  | .createZip => { s with zipExists := true }
  | .cleanupStaging => { s with stagingExists := false }

/-- Operation sequence of `build_firefox_zip`: conditional stale-state
cleanup, staging copy, then — only if the manifest step does not raise — the
archive creation and the final staging removal.  A raise at the manifest
step halts the pipeline right there. -/
def firefoxBuildOps (init : FsState) (src : List Char) : List FsOp :=
  (if init.stagingExists then [.removeStaging] else []) ++
  (if init.zipExists then [.removeZip] else []) ++
  [.copyTree] ++
  (match firefoxManifestRewrite src with
   | none => []
   | some _ => [.createZip, .cleanupStaging])

/-- Final storage state and success flag of a `build_firefox_zip` run whose
source manifest file holds `src`. -/
def runFirefoxBuild (init : FsState) (src : List Char) : FsState × Bool :=
  ((firefoxBuildOps init src).foldl applyFsOp init,
    (firefoxManifestRewrite src).isSome)

/-- Operation sequence of `build_chrome_zip` (no manifest step). -/
def chromeBuildOps (init : FsState) : List FsOp :=
  (if init.stagingExists then [.removeStaging] else []) ++
  (if init.zipExists then [.removeZip] else []) ++
  [.copyTree, .createZip, .cleanupStaging]

/-- Final storage state and success flag of a `build_chrome_zip` run. -/
def runChromeBuild (init : FsState) : FsState × Bool :=
  ((chromeBuildOps init).foldl applyFsOp init, true)

/-- C8: from any initial storage state, a successful run leaves no staging
directory and only the output archive; a firefox run that fails at the
manifest-transform step leaves the staging directory behind and no output
archive (the stale archive was already removed and the new one not yet
created). -/
theorem c8_cleanup (init : FsState) (src : List Char) :
    ((firefoxManifestRewrite src).isSome = true →
      runFirefoxBuild init src =
        ({ stagingExists := false, zipExists := true }, true)) ∧
    (firefoxManifestRewrite src = none →
      runFirefoxBuild init src =
        ({ stagingExists := true, zipExists := false }, false)) ∧
    runChromeBuild init =
      ({ stagingExists := false, zipExists := true }, true) := by
  obtain ⟨s, z⟩ := init
  refine ⟨?_, ?_, ?_⟩
  · intro h
    obtain ⟨out, hout⟩ := Option.isSome_iff_exists.mp h
    cases s <;> cases z <;>
      simp [runFirefoxBuild, firefoxBuildOps, hout, applyFsOp]
  · intro h
    cases s <;> cases z <;>
      simp [runFirefoxBuild, firefoxBuildOps, h, applyFsOp]
  · cases s <;> cases z <;>
      simp [runChromeBuild, chromeBuildOps, applyFsOp]

theorem c8_witness :
    ((firefoxManifestRewrite "\x7b\x7d".data).isSome = true ∧
      runFirefoxBuild { stagingExists := true, zipExists := true }
          "\x7b\x7d".data =
        ({ stagingExists := false, zipExists := true }, true)) ∧
    (firefoxManifestRewrite "not json".data = none ∧
      runFirefoxBuild { stagingExists := false, zipExists := true }
          "not json".data =
        ({ stagingExists := true, zipExists := false }, false)) :=
  ⟨⟨rfl, (c8_cleanup { stagingExists := true, zipExists := true }
      "\x7b\x7d".data).1 rfl⟩,
    ⟨rfl, (c8_cleanup { stagingExists := false, zipExists := true }
      "not json".data).2.1 rfl⟩⟩
